import Mathlib

/-!
Verification of the tokenization logic of the AI-Tokenizer repository.

The in-browser tokenizer (`src/src/App.js`, function `tokenizeText`) is a pure
function of the input text and the selected model name.  Strings are embedded
as `List Char`; JavaScript's `String.prototype.trim`, `split(/\s+/)`,
`split(/(\s+|[.,!?;:])/)` and `slice` are embedded as structurally recursive
functions below.  The network-backed variant (`src/Frontend/App.js`) is
embedded with the fetch outcome made an explicit argument.
-/

namespace AITokenizer

/-- The whitespace test used by the regular-expression class `\s` and by
`String.prototype.trim`, restricted to the ASCII whitespace characters. -/
def isWs (c : Char) : Bool :=
  c == ' ' || c == '\t' || c == '\n' || c == '\r' || c == '\x0B' || c == '\x0C'

/-- The punctuation class `[.,!?;:]` of the GPT-branch regular expression. -/
def isPunct (c : Char) : Bool :=
  c == '.' || c == ',' || c == '!' || c == '?' || c == ';' || c == ':'

/-- Embeds `String.prototype.trim`: remove leading and trailing whitespace. -/
def jsTrim (s : List Char) : List Char :=
  ((s.dropWhile isWs).reverse.dropWhile isWs).reverse

/-- Embeds `inputText.split(/\s+/)`: split at maximal runs of whitespace,
keeping the (possibly empty) fragments between the runs.  A leading or a
trailing run produces an empty fragment, exactly as in JavaScript. -/
def splitWs : List Char → List (List Char)
  | [] => [[]]
  | c :: rest =>
    if isWs c then
      match rest with
      | r :: _ => if isWs r then splitWs rest else [] :: splitWs rest
      | [] => [] :: splitWs rest
    else
      match splitWs rest with
      | [] => [[c]]
      | f :: fs => (c :: f) :: fs

/-- Embeds `inputText.split(/(\s+|[.,!?;:])/)`: because the pattern is one
capturing group, the separators (maximal whitespace runs and single
punctuation characters) appear in the result between the text fragments. -/
def splitCapture : List Char → List (List Char)
  | [] => [[]]
  | c :: rest =>
    if isPunct c then [] :: [c] :: splitCapture rest
    else if isWs c then
      match rest, splitCapture rest with
      | r :: _, _ :: run :: fs =>
        if isWs r then [] :: (c :: run) :: fs
        else [] :: [c] :: splitCapture rest
      | _, _ => [] :: [c] :: splitCapture rest
    else
      match splitCapture rest with
      | [] => [[c]]
      | f :: fs => (c :: f) :: fs

/-- Embeds the per-word logic of the Claude-3 branch: a word longer than 4
characters is cut at `Math.ceil(word.length / 2)` into its two slices,
any other word is kept whole.  On natural numbers the ceiling of `n / 2`
is `(n + 1) / 2`. -/
def claudeWord (w : List Char) : List (List Char) :=
  if 4 < w.length then
    [w.take ((w.length + 1) / 2), w.drop ((w.length + 1) / 2)]
  else
    [w]

/-- Embeds the GPT branch: split with captured separators, keep the fragments
of positive length (`filter(part => part.length > 0)`) whose trim is truthy
(`if (part.trim())`). -/
def gptParts (s : List Char) : List (List Char) :=
  ((splitCapture s).filter fun p => !p.isEmpty).filter fun p => !(jsTrim p).isEmpty

/-- A produced token: a sequential identifier and a fragment of the input. -/
structure Token where
  id : Nat
  text : List Char
deriving DecidableEq

/-- Embeds the `tokenId++` counter: label a list of texts with consecutive
identifiers starting at `n`. -/
def assignIds : Nat → List (List Char) → List Token
  | _, [] => []
  | n, t :: ts => ⟨n, t⟩ :: assignIds (n + 1) ts

/-- The model name that selects the aggressive branch. -/
def claudeModel : List Char := ['C', 'l', 'a', 'u', 'd', 'e', '-', '3']

/-- Embeds `tokenizeText` of `src/src/App.js`: empty-trim inputs yield no
tokens; the `Claude-3` model splits on whitespace and bisects long words;
every other model splits on whitespace runs and punctuation, discarding
separators; identifiers are assigned sequentially from 1. -/
def tokenizeText (inputText model : List Char) : List Token :=
  if jsTrim inputText = [] then []
  else if model = claudeModel then
    assignIds 1 ((splitWs inputText).map claudeWord).flatten
  else
    assignIds 1 (gptParts inputText)

/-- The observable outcome of the remote tokenize call made by
`src/Frontend/App.js`: the fetch may fail outright (network error, or a body
that does not parse), or return a response with an `ok` flag and an optional
`tokens` field. -/
inductive FetchOutcome where
  | networkError : FetchOutcome
  | response (ok : Bool) (toks : Option (List Token)) : FetchOutcome

/-- Embeds `tokenizeText` of `src/Frontend/App.js` with the fetch outcome
explicit: an empty-trim input returns `[]` without calling; a thrown error
(network failure or `!response.ok`) is caught and returns `[]`; a missing
`tokens` field falls back to `[]` through `data.tokens || []`. -/
def tokenizeTextNet (inputText _model : List Char) (outcome : FetchOutcome) :
    List Token :=
  if jsTrim inputText = [] then []
  else
    match outcome with
    | FetchOutcome.networkError => []
    | FetchOutcome.response ok toks => if ok then toks.getD [] else []

/-- The failure modes of the remote call named by the specification: a network
error, a non-ok response, or a response without a `tokens` field. -/
def fetchFailed : FetchOutcome → Prop
  | FetchOutcome.networkError => True
  | FetchOutcome.response ok toks => ok = false ∨ toks = none

/-- Contiguous-substring relation on embedded strings. -/
def isSubstringOf (p s : List Char) : Prop := ∃ a b, s = a ++ p ++ b

/-- A whitespace character is not one of the six punctuation characters. -/
theorem ws_not_punct {c : Char} (h : isWs c = true) : isPunct c = false := by
  simp only [isWs, Bool.or_eq_true, beq_iff_eq] at h
  rcases h with ((((h | h) | h) | h) | h) | h <;> subst h <;> decide

/-- A punctuation character is not whitespace. -/
theorem punct_not_ws {c : Char} (h : isPunct c = true) : isWs c = false := by
  simp only [isPunct, Bool.or_eq_true, beq_iff_eq] at h
  rcases h with ((((h | h) | h) | h) | h) | h <;> subst h <;> decide

/-- Dropping a whitespace prefix from an all-non-whitespace list is the
identity. -/
theorem dropWhile_isWs_eq_self {p : List Char} (h : ∀ c ∈ p, isWs c = false) :
    p.dropWhile isWs = p := by
  cases p with
  | nil => rfl
  | cons c t =>
    rw [List.dropWhile_cons, h c (List.mem_cons_self c t)]
    simp

/-- Trimming a fully-whitespace string gives the empty string. -/
theorem jsTrim_allWs {p : List Char} (h : ∀ c ∈ p, isWs c = true) :
    jsTrim p = [] := by
  unfold jsTrim
  rw [List.dropWhile_eq_nil_iff.mpr h]
  simp

/-- Trimming a string without whitespace characters is the identity. -/
theorem jsTrim_allNonWs {p : List Char} (h : ∀ c ∈ p, isWs c = false) :
    jsTrim p = p := by
  unfold jsTrim
  rw [dropWhile_isWs_eq_self h]
  rw [dropWhile_isWs_eq_self (fun c hc => h c (List.mem_reverse.mp hc))]
  exact List.reverse_reverse p

/-- The trim of a string is empty exactly when the string is all whitespace. -/
theorem jsTrim_eq_nil_iff {p : List Char} :
    jsTrim p = [] ↔ ∀ c ∈ p, isWs c = true := by
  constructor
  · intro h c hc
    unfold jsTrim at h
    rw [List.reverse_eq_nil_iff, List.dropWhile_eq_nil_iff] at h
    have hdrop : ∀ x ∈ p.dropWhile isWs, isWs x = true := by
      intro x hx
      exact h x (List.mem_reverse.mpr hx)
    have hsplit := List.takeWhile_append_dropWhile (p := isWs) (l := p)
    rw [← hsplit] at hc
    rcases List.mem_append.mp hc with htake | hdropmem
    · exact List.mem_takeWhile_imp htake
    · exact hdrop c hdropmem
  · exact jsTrim_allWs

/-- The labels produced by `assignIds` do not change the texts. -/
theorem assignIds_map_text : ∀ (n : Nat) (L : List (List Char)),
    (assignIds n L).map Token.text = L
  | _, [] => rfl
  | n, t :: ts => by
    simp only [assignIds, List.map_cons, assignIds_map_text (n + 1) ts]

/-- `assignIds` produces the consecutive identifiers starting at `n`. -/
theorem assignIds_map_id : ∀ (n : Nat) (L : List (List Char)),
    (assignIds n L).map Token.id = List.range' n L.length
  | _, [] => rfl
  | n, t :: ts => by
    simp only [assignIds, List.map_cons, List.length_cons, List.range'_succ,
      assignIds_map_id (n + 1) ts]

/-- `assignIds` produces one token per text. -/
theorem assignIds_length : ∀ (n : Nat) (L : List (List Char)),
    (assignIds n L).length = L.length
  | _, [] => rfl
  | n, t :: ts => by
    simp only [assignIds, List.length_cons, assignIds_length (n + 1) ts]

/-- Every token produced by `assignIds` carries one of the given texts. -/
theorem mem_assignIds : ∀ {n : Nat} {L : List (List Char)} {t : Token},
    t ∈ assignIds n L → t.text ∈ L := by
  intro n L
  induction L generalizing n with
  | nil => intro t h; cases h
  | cons x xs ih =>
    intro t h
    rcases List.mem_cons.mp h with h | h
    · subst h; exact List.mem_cons_self x xs
    · exact List.mem_cons_of_mem x (ih h)

/-- The empty string is a substring of anything. -/
theorem isSubstringOf_nil (s : List Char) : isSubstringOf [] s :=
  ⟨[], s, rfl⟩

/-- A substring of `s` is a substring of `c :: s`. -/
theorem isSubstringOf_cons {p s : List Char} (c : Char)
    (h : isSubstringOf p s) : isSubstringOf p (c :: s) := by
  obtain ⟨a, b, hab⟩ := h
  exact ⟨c :: a, b, by rw [hab]; rfl⟩

/-- The substring relation is transitive. -/
theorem isSubstringOf_trans {p q s : List Char}
    (h1 : isSubstringOf p q) (h2 : isSubstringOf q s) : isSubstringOf p s := by
  obtain ⟨a1, b1, hab1⟩ := h1
  obtain ⟨a2, b2, hab2⟩ := h2
  exact ⟨a2 ++ a1, b1 ++ b2, by rw [hab2, hab1]; simp [List.append_assoc]⟩

/-- A prefix obtained by `take` is a substring. -/
theorem isSubstringOf_take (n : Nat) (s : List Char) :
    isSubstringOf (s.take n) s :=
  ⟨[], s.drop n, by simp [List.take_append_drop]⟩

/-- A suffix obtained by `drop` is a substring. -/
theorem isSubstringOf_drop (n : Nat) (s : List Char) :
    isSubstringOf (s.drop n) s :=
  ⟨s.take n, [], by simp [List.take_append_drop]⟩

/-- Every member of a list of fragments is a substring of their
concatenation. -/
theorem isSubstringOf_flatten {L : List (List Char)} {p : List Char}
    (h : p ∈ L) : isSubstringOf p L.flatten := by
  induction L with
  | nil => cases h
  | cons f fs ih =>
    rcases List.mem_cons.mp h with h | h
    · subst h
      exact ⟨[], fs.flatten, by simp⟩
    · obtain ⟨a, b, hab⟩ := ih h
      exact ⟨f ++ a, b, by simp [hab, List.append_assoc]⟩

/-- One-step equation of `splitWs` on the empty string. -/
theorem splitWs_nil_eq : splitWs [] = [[]] := rfl

/-- One-step equation of `splitWs` on a non-empty string. -/
theorem splitWs_cons_eq (c : Char) (rest : List Char) :
    splitWs (c :: rest) =
      if isWs c then
        match rest with
        | r :: _ => if isWs r then splitWs rest else [] :: splitWs rest
        | [] => [] :: splitWs rest
      else
        match splitWs rest with
        | [] => [[c]]
        | f :: fs => (c :: f) :: fs := rfl

/-- One-step equation of `splitCapture` on the empty string. -/
theorem splitCapture_nil_eq : splitCapture [] = [[]] := rfl

/-- One-step equation of `splitCapture` on a non-empty string. -/
theorem splitCapture_cons_eq (c : Char) (rest : List Char) :
    splitCapture (c :: rest) =
      if isPunct c then [] :: [c] :: splitCapture rest
      else if isWs c then
        match rest, splitCapture rest with
        | r :: _, _ :: run :: fs =>
          if isWs r then [] :: (c :: run) :: fs
          else [] :: [c] :: splitCapture rest
        | _, _ => [] :: [c] :: splitCapture rest
      else
        match splitCapture rest with
        | [] => [[c]]
        | f :: fs => (c :: f) :: fs := rfl

/-- `splitWs` never returns the empty list of fragments. -/
theorem splitWs_ne_nil : ∀ s : List Char, splitWs s ≠ [] := by
  intro s
  induction s with
  | nil => simp [splitWs_nil_eq]
  | cons c rest ih =>
    rw [splitWs_cons_eq]
    split
    · split
      · split
        · exact ih
        · simp
      · simp
    · split <;> simp

/-- `splitCapture` never returns the empty list of fragments. -/
theorem splitCapture_ne_nil : ∀ s : List Char, splitCapture s ≠ [] := by
  intro s
  cases s with
  | nil => simp [splitCapture_nil_eq]
  | cons c rest =>
    rw [splitCapture_cons_eq]
    split
    · simp
    · split
      · split
        · split <;> simp
        · simp
      · split <;> simp

/-- Structural facts about `splitWs`: every fragment is a substring of the
input, the first fragment is a prefix of the input, and an input starting
with whitespace starts with an empty fragment. -/
theorem splitWs_strong : ∀ s : List Char,
    (∀ p ∈ splitWs s, isSubstringOf p s) ∧
    (∀ f fs, splitWs s = f :: fs → ∃ b, s = f ++ b) ∧
    (∀ c rest, s = c :: rest → isWs c = true → ∃ fs, splitWs s = [] :: fs) := by
  intro s
  induction s with
  | nil =>
    refine ⟨?_, ?_, ?_⟩
    · intro p hp
      rw [splitWs_nil_eq] at hp
      have hp2 := List.mem_singleton.mp hp
      subst hp2
      exact isSubstringOf_nil []
    · intro f fs h
      rw [splitWs_nil_eq] at h
      injection h with h1 h2
      subst h1
      exact ⟨[], rfl⟩
    · intro c rest h hw
      exact absurd h.symm (List.cons_ne_nil c rest)
  | cons c rest ih =>
    obtain ⟨ih1, ih2, ih3⟩ := ih
    cases hw : isWs c with
    | true =>
      have hstep : splitWs (c :: rest) = [] :: splitWs rest ∨
          ∃ fs, splitWs rest = [] :: fs ∧ splitWs (c :: rest) = splitWs rest := by
        cases rest with
        | nil =>
          left
          rw [splitWs_cons_eq, if_pos hw]
        | cons r rest2 =>
          cases hr : isWs r with
          | true =>
            right
            obtain ⟨fs, hfs⟩ := ih3 r rest2 rfl hr
            refine ⟨fs, hfs, ?_⟩
            rw [splitWs_cons_eq, if_pos hw]
            simp [hr]
          | false =>
            left
            rw [splitWs_cons_eq, if_pos hw]
            simp [hr]
      rcases hstep with heq | ⟨fs, hfs, heq⟩
      · refine ⟨?_, ?_, ?_⟩
        · intro p hp
          rw [heq] at hp
          rcases List.mem_cons.mp hp with hp | hp
          · subst hp
            exact isSubstringOf_nil _
          · exact isSubstringOf_cons c (ih1 p hp)
        · intro f fs0 h
          rw [heq] at h
          injection h with h1 h2
          subst h1
          exact ⟨c :: rest, rfl⟩
        · intro c2 rest2 h hw2
          exact ⟨splitWs rest, heq⟩
      · refine ⟨?_, ?_, ?_⟩
        · intro p hp
          rw [heq] at hp
          exact isSubstringOf_cons c (ih1 p hp)
        · intro f fs0 h
          rw [heq, hfs] at h
          injection h with h1 h2
          subst h1
          exact ⟨c :: rest, rfl⟩
        · intro c2 rest2 h hw2
          exact ⟨fs, by rw [heq, hfs]⟩
    | false =>
      rcases hsw : splitWs rest with _ | ⟨f, fs⟩
      · exact absurd hsw (splitWs_ne_nil rest)
      · have heq : splitWs (c :: rest) = (c :: f) :: fs := by
          rw [splitWs_cons_eq, if_neg (by simp [hw]), hsw]
        refine ⟨?_, ?_, ?_⟩
        · intro p hp
          rw [heq] at hp
          rcases List.mem_cons.mp hp with hp | hp
          · subst hp
            obtain ⟨b, hb⟩ := ih2 f fs hsw
            exact ⟨[], b, by rw [hb]; rfl⟩
          · refine isSubstringOf_cons c (ih1 p ?_)
            rw [hsw]
            exact List.mem_cons_of_mem f hp
        · intro f0 fs0 h
          rw [heq] at h
          injection h with h1 h2
          subst h1
          obtain ⟨b, hb⟩ := ih2 f fs hsw
          exact ⟨b, by rw [hb]; rfl⟩
        · intro c2 rest2 h hw2
          injection h with h1 h2
          subst h1
          exact absurd hw2 (by simp [hw])

/-- Structural facts about `splitCapture`: the fragments concatenate back to
the input, every fragment is all-whitespace or whitespace-free, an input
starting with whitespace starts with an empty fragment followed by a
whitespace run, and the first fragment is always whitespace-free. -/
theorem splitCapture_strong : ∀ s : List Char,
    (splitCapture s).flatten = s ∧
    (∀ p ∈ splitCapture s, (∀ c ∈ p, isWs c = true) ∨ (∀ c ∈ p, isWs c = false)) ∧
    (∀ c rest, s = c :: rest → isWs c = true →
      ∃ run fs, splitCapture s = [] :: run :: fs ∧ ∀ x ∈ run, isWs x = true) ∧
    (∀ f fs, splitCapture s = f :: fs → ∀ c ∈ f, isWs c = false) := by
  intro s
  induction s with
  | nil =>
    refine ⟨rfl, ?_, ?_, ?_⟩
    · intro p hp
      rw [splitCapture_nil_eq] at hp
      have hp2 := List.mem_singleton.mp hp
      subst hp2
      exact Or.inl (fun x hx => absurd hx (List.not_mem_nil x))
    · intro c rest h hw
      exact absurd h.symm (List.cons_ne_nil c rest)
    · intro f fs h x hx
      rw [splitCapture_nil_eq] at h
      injection h with h1 h2
      subst h1
      exact absurd hx (List.not_mem_nil x)
  | cons c rest ih =>
    obtain ⟨ihJ, ihC, ihW, ihF⟩ := ih
    cases hp : isPunct c with
    | true =>
      have hw : isWs c = false := punct_not_ws hp
      have heq : splitCapture (c :: rest) = [] :: [c] :: splitCapture rest := by
        rw [splitCapture_cons_eq, if_pos hp]
      refine ⟨?_, ?_, ?_, ?_⟩
      · rw [heq]
        simp [ihJ]
      · intro p hmem
        rw [heq] at hmem
        rcases List.mem_cons.mp hmem with h1 | hmem2
        · subst h1
          exact Or.inl (fun x hx => absurd hx (List.not_mem_nil x))
        · rcases List.mem_cons.mp hmem2 with h1 | hmem3
          · subst h1
            refine Or.inr (fun x hx => ?_)
            have hx2 := List.mem_singleton.mp hx
            subst hx2
            exact hw
          · exact ihC p hmem3
      · intro c2 rest2 h hw2
        injection h with h1 h2
        subst h1
        exact absurd hw2 (by simp [hw])
      · intro f fs h x hx
        rw [heq] at h
        injection h with h1 h2
        subst h1
        exact absurd hx (List.not_mem_nil x)
    | false =>
      cases hw : isWs c with
      | true =>
        cases rest with
        | nil =>
          have heq : splitCapture [c] = [] :: [c] :: splitCapture [] := by
            rw [splitCapture_cons_eq, if_neg (by simp [hp]), if_pos hw]
          refine ⟨?_, ?_, ?_, ?_⟩
          · rw [heq]
            simp [ihJ]
          · intro p hmem
            rw [heq] at hmem
            rcases List.mem_cons.mp hmem with h1 | hmem2
            · subst h1
              exact Or.inl (fun x hx => absurd hx (List.not_mem_nil x))
            · rcases List.mem_cons.mp hmem2 with h1 | hmem3
              · subst h1
                refine Or.inl (fun x hx => ?_)
                have hx2 := List.mem_singleton.mp hx
                subst hx2
                exact hw
              · exact ihC p hmem3
          · intro c2 rest2 h hw2
            refine ⟨[c], splitCapture [], heq, fun x hx => ?_⟩
            have hx2 := List.mem_singleton.mp hx
            subst hx2
            exact hw
          · intro f fs h x hx
            rw [heq] at h
            injection h with h1 h2
            subst h1
            exact absurd hx (List.not_mem_nil x)
        | cons r rest2 =>
          cases hr : isWs r with
          | true =>
            obtain ⟨run, fs, hsc, hrun⟩ := ihW r rest2 rfl hr
            have heq : splitCapture (c :: r :: rest2) = [] :: (c :: run) :: fs := by
              rw [splitCapture_cons_eq, if_neg (by simp [hp]), if_pos hw, hsc]
              simp [hr]
            have hflat : run ++ fs.flatten = r :: rest2 := by
              have h2 := ihJ
              rw [hsc] at h2
              simpa using h2
            refine ⟨?_, ?_, ?_, ?_⟩
            · rw [heq]
              simp [hflat]
            · intro p hmem
              rw [heq] at hmem
              rcases List.mem_cons.mp hmem with h1 | hmem2
              · subst h1
                exact Or.inl (fun x hx => absurd hx (List.not_mem_nil x))
              · rcases List.mem_cons.mp hmem2 with h1 | hmem3
                · subst h1
                  refine Or.inl (fun x hx => ?_)
                  rcases List.mem_cons.mp hx with h2 | h2
                  · subst h2
                    exact hw
                  · exact hrun x h2
                · apply ihC
                  rw [hsc]
                  exact List.mem_cons_of_mem _ (List.mem_cons_of_mem _ hmem3)
            · intro c2 rest3 h hw2
              refine ⟨c :: run, fs, heq, fun x hx => ?_⟩
              rcases List.mem_cons.mp hx with h2 | h2
              · subst h2
                exact hw
              · exact hrun x h2
            · intro f fs2 h x hx
              rw [heq] at h
              injection h with h1 h2
              subst h1
              exact absurd hx (List.not_mem_nil x)
          | false =>
            rcases hsc : splitCapture (r :: rest2) with _ | ⟨f0, fs0⟩
            · exact absurd hsc (splitCapture_ne_nil _)
            · have heq : splitCapture (c :: r :: rest2) =
                  [] :: [c] :: splitCapture (r :: rest2) := by
                cases fs0 with
                | nil =>
                  rw [splitCapture_cons_eq, if_neg (by simp [hp]), if_pos hw, hsc]
                | cons f1 fs1 =>
                  rw [splitCapture_cons_eq, if_neg (by simp [hp]), if_pos hw, hsc]
                  simp [hr]
              refine ⟨?_, ?_, ?_, ?_⟩
              · rw [heq]
                simp [ihJ]
              · intro p hmem
                rw [heq] at hmem
                rcases List.mem_cons.mp hmem with h1 | hmem2
                · subst h1
                  exact Or.inl (fun x hx => absurd hx (List.not_mem_nil x))
                · rcases List.mem_cons.mp hmem2 with h1 | hmem3
                  · subst h1
                    refine Or.inl (fun x hx => ?_)
                    have hx2 := List.mem_singleton.mp hx
                    subst hx2
                    exact hw
                  · exact ihC p hmem3
              · intro c2 rest3 h hw2
                refine ⟨[c], splitCapture (r :: rest2), heq, fun x hx => ?_⟩
                have hx2 := List.mem_singleton.mp hx
                subst hx2
                exact hw
              · intro f fs2 h x hx
                rw [heq] at h
                injection h with h1 h2
                subst h1
                exact absurd hx (List.not_mem_nil x)
      | false =>
        rcases hsc : splitCapture rest with _ | ⟨f, fs⟩
        · exact absurd hsc (splitCapture_ne_nil rest)
        · have heq : splitCapture (c :: rest) = (c :: f) :: fs := by
            rw [splitCapture_cons_eq, if_neg (by simp [hp]), if_neg (by simp [hw]), hsc]
          have hflat : f ++ fs.flatten = rest := by
            have h2 := ihJ
            rw [hsc] at h2
            simpa using h2
          refine ⟨?_, ?_, ?_, ?_⟩
          · rw [heq]
            simp only [List.flatten_cons, List.cons_append, hflat]
          · intro p hmem
            rw [heq] at hmem
            rcases List.mem_cons.mp hmem with h1 | hmem2
            · subst h1
              refine Or.inr (fun x hx => ?_)
              rcases List.mem_cons.mp hx with h2 | h2
              · subst h2
                exact hw
              · exact ihF f fs hsc x h2
            · apply ihC
              rw [hsc]
              exact List.mem_cons_of_mem f hmem2
          · intro c2 rest2 h hw2
            injection h with h1 h2
            subst h1
            exact absurd hw2 (by simp [hw])
          · intro f2 fs2 h x hx
            rw [heq] at h
            injection h with h1 h2
            subst h1
            rcases List.mem_cons.mp hx with h2 | h2
            · subst h2
              exact hw
            · exact ihF f fs hsc x h2

/-- Filtering the captured-split fragments down to the kept parts and
concatenating them removes exactly the whitespace of the concatenation. -/
theorem flatten_gptFilter : ∀ L : List (List Char),
    (∀ p ∈ L, (∀ c ∈ p, isWs c = true) ∨ (∀ c ∈ p, isWs c = false)) →
    ((L.filter fun p => !p.isEmpty).filter fun p => !(jsTrim p).isEmpty).flatten
      = L.flatten.filter fun c => !isWs c := by
  intro L
  induction L with
  | nil => intro h; rfl
  | cons q tl ih =>
    intro hclass
    have hq := hclass q (List.mem_cons_self q tl)
    have ihtl := ih fun p hp => hclass p (List.mem_cons_of_mem q hp)
    rw [List.flatten_cons, List.filter_append, ← ihtl]
    rcases hq with hws | hnws
    · have hqfilter : List.filter (fun c => !isWs c) q = [] := by
        rw [List.filter_eq_nil_iff]
        intro a ha
        simp [hws a ha]
      have htrim : (jsTrim q).isEmpty = true := by
        rw [jsTrim_allWs hws]
        rfl
      rw [hqfilter]
      by_cases hq0 : q = []
      · subst hq0
        simp [List.filter_cons]
      · have h1 : q.isEmpty = false := by simp [hq0]
        simp [List.filter_cons, h1, htrim]
    · by_cases hq0 : q = []
      · subst hq0
        simp [List.filter_cons]
      · have hqfilter : List.filter (fun c => !isWs c) q = q := by
          rw [List.filter_eq_self]
          intro a ha
          simp [hnws a ha]
        have htrim : (jsTrim q).isEmpty = false := by
          rw [jsTrim_allNonWs hnws]
          simp [hq0]
        have h1 : q.isEmpty = false := by simp [hq0]
        rw [hqfilter]
        simp [List.filter_cons, h1, htrim]

/-- C1: for the aggressive Claude-3 strategy the token texts are exactly the
per-word results over the whitespace split, where a word of length at most 4
yields the single token equal to the word and a longer word yields exactly
the two tokens cut at the ceiling of half its length, which concatenate back
to the word. -/
theorem claude_per_word (input w : List Char)
    (hin : jsTrim input ≠ []) (_hw : w ∈ splitWs input) :
    (tokenizeText input claudeModel).map Token.text
        = ((splitWs input).map claudeWord).flatten ∧
    (w.length ≤ 4 → claudeWord w = [w]) ∧
    (4 < w.length →
      claudeWord w = [w.take ((w.length + 1) / 2), w.drop ((w.length + 1) / 2)] ∧
      (claudeWord w).length = 2 ∧ (claudeWord w).flatten = w) := by
  refine ⟨?_, ?_, ?_⟩
  · unfold tokenizeText
    rw [if_neg hin, if_pos rfl]
    exact assignIds_map_text _ _
  · intro hlen
    unfold claudeWord
    rw [if_neg (by omega)]
  · intro hlen
    have hcw : claudeWord w
        = [w.take ((w.length + 1) / 2), w.drop ((w.length + 1) / 2)] := by
      unfold claudeWord
      rw [if_pos hlen]
    refine ⟨hcw, ?_, ?_⟩
    · rw [hcw]
      rfl
    · rw [hcw]
      simp [List.take_append_drop]

/-- Witness for C1 at the concrete word hello. -/
theorem claude_per_word_witness :
    (tokenizeText ['h','e','l','l','o'] claudeModel).map Token.text
        = ((splitWs ['h','e','l','l','o']).map claudeWord).flatten ∧
    (List.length ['h','e','l','l','o'] ≤ 4 →
      claudeWord ['h','e','l','l','o'] = [['h','e','l','l','o']]) ∧
    (4 < List.length ['h','e','l','l','o'] →
      claudeWord ['h','e','l','l','o']
          = [List.take ((List.length ['h','e','l','l','o'] + 1) / 2) ['h','e','l','l','o'],
             List.drop ((List.length ['h','e','l','l','o'] + 1) / 2) ['h','e','l','l','o']] ∧
      (claudeWord ['h','e','l','l','o']).length = 2 ∧
      (claudeWord ['h','e','l','l','o']).flatten = ['h','e','l','l','o']) :=
  claude_per_word ['h','e','l','l','o'] ['h','e','l','l','o'] (by decide) (by decide)

/-- C2: under the punctuation-based strategy, concatenating the token texts
in order gives the input with all whitespace characters removed. -/
theorem gpt_concat (input model : List Char) (hm : model ≠ claudeModel) :
    ((tokenizeText input model).map Token.text).flatten
      = input.filter fun c => !isWs c := by
  unfold tokenizeText
  by_cases htrim : jsTrim input = []
  · rw [if_pos htrim]
    have hws := jsTrim_eq_nil_iff.mp htrim
    have hnil : input.filter (fun c => !isWs c) = [] := by
      rw [List.filter_eq_nil_iff]
      intro a ha
      simp [hws a ha]
    rw [hnil]
    rfl
  · rw [if_neg htrim, if_neg hm, assignIds_map_text]
    unfold gptParts
    obtain ⟨hJ, hC, _, _⟩ := splitCapture_strong input
    rw [flatten_gptFilter (splitCapture input) hC, hJ]

/-- Witness for C2 at a concrete input with whitespace. -/
theorem gpt_concat_witness :
    ((tokenizeText ['a', ' ', 'b'] []).map Token.text).flatten
      = List.filter (fun c => !isWs c) ['a', ' ', 'b'] :=
  gpt_concat ['a', ' ', 'b'] [] (by decide)

/-- C3: the identifiers of the produced tokens are exactly 1 through N in
output order, for every input and model. -/
theorem token_ids_sequential (input model : List Char) :
    (tokenizeText input model).map Token.id
      = List.range' 1 (tokenizeText input model).length := by
  unfold tokenizeText
  by_cases htrim : jsTrim input = []
  · rw [if_pos htrim]
    rfl
  · rw [if_neg htrim]
    by_cases hm : model = claudeModel
    · rw [if_pos hm, assignIds_map_id, assignIds_length]
    · rw [if_neg hm, assignIds_map_id, assignIds_length]

/-- C4: an input whose trim is empty produces no tokens, for every model. -/
theorem empty_trim_empty_tokens (input model : List Char)
    (h : jsTrim input = []) : tokenizeText input model = [] := by
  unfold tokenizeText
  rw [if_pos h]

/-- Witness for C4 at a whitespace-only input. -/
theorem empty_trim_empty_tokens_witness : tokenizeText [' '] [] = [] :=
  empty_trim_empty_tokens [' '] [] (by decide)

/-- C5: under the punctuation-based strategy every produced token text is
non-empty and not whitespace-only. -/
theorem gpt_tokens_not_ws (input model : List Char) (hm : model ≠ claudeModel) :
    ∀ t ∈ tokenizeText input model, t.text ≠ [] ∧ jsTrim t.text ≠ [] := by
  intro t ht
  unfold tokenizeText at ht
  by_cases htrim : jsTrim input = []
  · rw [if_pos htrim] at ht
    cases ht
  · rw [if_neg htrim, if_neg hm] at ht
    have hmem := mem_assignIds ht
    unfold gptParts at hmem
    rw [List.mem_filter] at hmem
    obtain ⟨hmem1, htrim2⟩ := hmem
    rw [List.mem_filter] at hmem1
    obtain ⟨_, hne⟩ := hmem1
    constructor
    · intro h0
      rw [h0] at hne
      simp at hne
    · intro h0
      rw [h0] at htrim2
      simp at htrim2

/-- Witness for C5 at a concrete input and token. -/
theorem gpt_tokens_not_ws_witness :
    (Token.mk 1 ['h','i']).text ≠ [] ∧ jsTrim (Token.mk 1 ['h','i']).text ≠ [] :=
  gpt_tokens_not_ws ['h','i'] [] (by decide) (Token.mk 1 ['h','i']) (by decide)

/-- C6: every produced token text is a contiguous substring of the input,
for every input and model. -/
theorem token_text_substring (input model : List Char) (t : Token)
    (ht : t ∈ tokenizeText input model) : isSubstringOf t.text input := by
  unfold tokenizeText at ht
  by_cases htrim : jsTrim input = []
  · rw [if_pos htrim] at ht
    cases ht
  · rw [if_neg htrim] at ht
    by_cases hm : model = claudeModel
    · rw [if_pos hm] at ht
      have hmem := mem_assignIds ht
      rw [List.mem_flatten] at hmem
      obtain ⟨l, hl, hmeml⟩ := hmem
      rw [List.mem_map] at hl
      obtain ⟨w, hwmem, hlw⟩ := hl
      subst hlw
      obtain ⟨hsub, _, _⟩ := splitWs_strong input
      have hwsub : isSubstringOf w input := hsub w hwmem
      unfold claudeWord at hmeml
      by_cases hlen : 4 < w.length
      · rw [if_pos hlen] at hmeml
        rcases List.mem_cons.mp hmeml with h1 | h2
        · rw [h1]
          exact isSubstringOf_trans (isSubstringOf_take _ w) hwsub
        · rcases List.mem_cons.mp h2 with h3 | h4
          · rw [h3]
            exact isSubstringOf_trans (isSubstringOf_drop _ w) hwsub
          · cases h4
      · rw [if_neg hlen] at hmeml
        have hx := List.mem_singleton.mp hmeml
        rw [hx]
        exact hwsub
    · rw [if_neg hm] at ht
      have hmem := mem_assignIds ht
      unfold gptParts at hmem
      rw [List.mem_filter] at hmem
      obtain ⟨hmem1, _⟩ := hmem
      rw [List.mem_filter] at hmem1
      obtain ⟨hmem2, _⟩ := hmem1
      obtain ⟨hJ, _, _, _⟩ := splitCapture_strong input
      have hfl := isSubstringOf_flatten hmem2
      rw [hJ] at hfl
      exact hfl

/-- Witness for C6 at a concrete input and token. -/
theorem token_text_substring_witness : isSubstringOf ['h','i'] ['h','i'] :=
  token_text_substring ['h','i'] [] (Token.mk 1 ['h','i']) (by decide)

/-- C7: the tokenizer is total (it returns a token list on every pair of
arguments) and pure (equal arguments give equal results). -/
theorem tokenize_total_deterministic (input model : List Char) :
    (∃ ts, tokenizeText input model = ts) ∧
    ∀ input2 model2, input = input2 → model = model2 →
      tokenizeText input model = tokenizeText input2 model2 := by
  refine ⟨⟨tokenizeText input model, rfl⟩, ?_⟩
  intro input2 model2 h1 h2
  rw [h1, h2]

/-- Witness for C7 at concrete arguments. -/
theorem tokenize_total_deterministic_witness :
    tokenizeText ['a'] [] = tokenizeText ['a'] [] :=
  (tokenize_total_deterministic ['a'] []).2 ['a'] [] rfl rfl

/-- C8: in the network-backed variant every failing fetch outcome (network
error, non-ok response, or missing tokens field) produces the empty token
list. -/
theorem net_failure_yields_empty (input model : List Char)
    (outcome : FetchOutcome) (h : fetchFailed outcome) :
    tokenizeTextNet input model outcome = [] := by
  unfold tokenizeTextNet
  by_cases htrim : jsTrim input = []
  · rw [if_pos htrim]
  · rw [if_neg htrim]
    cases outcome with
    | networkError => rfl
    | response ok toks =>
      rcases h with hok | hnone
      · subst hok
        simp
      · subst hnone
        cases ok <;> simp

/-- Witness for C8 at a network error. -/
theorem net_failure_yields_empty_witness :
    tokenizeTextNet ['h'] [] FetchOutcome.networkError = [] :=
  net_failure_yields_empty ['h'] [] FetchOutcome.networkError trivial

/-- C9: two model names that both differ from Claude-3 tokenize every input
identically; the model argument matters only through that equality. -/
theorem model_only_claude_matters (input m1 m2 : List Char)
    (h1 : m1 ≠ claudeModel) (h2 : m2 ≠ claudeModel) :
    tokenizeText input m1 = tokenizeText input m2 := by
  unfold tokenizeText
  by_cases htrim : jsTrim input = []
  · rw [if_pos htrim, if_pos htrim]
  · rw [if_neg htrim, if_neg htrim, if_neg h1, if_neg h2]

/-- Witness for C9 at two concrete non-Claude model names. -/
theorem model_only_claude_matters_witness :
    tokenizeText ['h','i'] ['G','P','T','-','4'] = tokenizeText ['h','i'] [] :=
  model_only_claude_matters ['h','i'] ['G','P','T','-','4'] [] (by decide) (by decide)

/-- C10: the aggressive strategy on the input consisting of a space followed
by hi, whose trim is non-empty, outputs a token whose text is empty, because
the leading whitespace run contributes an undiscarded empty fragment. -/
theorem claude_leading_space_empty_token :
    jsTrim [' ', 'h', 'i'] ≠ [] ∧
    ∃ t ∈ tokenizeText [' ', 'h', 'i'] claudeModel, t.text = [] := by
  decide

end AITokenizer
